import Mathlib

/-!
Shallow embedding of `hmm.cc` (Viterbi decoding of a hidden Markov model).

Conventions of the embedding:
* C++ `double` probabilities are embedded as `ℚ` (exact arithmetic; the
  claims under study concern the comparison/selection structure of the
  algorithm, not rounding).
* `std::map<std::string, size_t>` is embedded as an association list
  `List (String × Nat)`; `operator[]` (which default-inserts `0` for an
  absent key) is `mapGetOrInsert`, `map::at` is `mapFind` (`none` models
  the `std::out_of_range` throw), assignment `m[k] = v` is `mapSet`.
* `vector<vector<double>>` matrices that are allocated with a fixed size,
  zero-filled and then written at in-bounds indices are embedded as total
  functions `Nat → Nat → ℚ` starting from `fun _ _ => 0` and updated
  pointwise (`updProb`); the dimension (`nstates`) is carried alongside in
  the `Model` structure (the C++ code recovers it as
  `model.transitionProb.size()`).
* C++ exceptions are embedded with `Except HMMError`;
  `std::domain_error` and `std::out_of_range` are the two constructors.
-/

/-- The two exception kinds thrown by the data-loading code of `hmm.cc`:
`std::domain_error msg` (model invariant violations in `Model::ReadModel`)
and `std::out_of_range` (thrown by `map::at` in
`ExperimentData::ReadExperimentData`). -/
inductive HMMError where
  | domainError : String → HMMError
  | lookupError : HMMError
deriving DecidableEq

/-- `HMM::Data::Model`: the state-name registry and the two probability
matrices.  `nstates` records the dimension of `transitionProb`
(`model.transitionProb.size()` in the C++ code). -/
structure Model where
  stateNameToIndex : List (String × Nat)
  alphabetSize : Nat
  nstates : Nat
  transitionProb : Nat → Nat → ℚ
  stateSymbolProb : Nat → Nat → ℚ

/-- `HMM::Data::ExperimentData`: the ordered
`(stepNumber, stateIndex, symbolIndex)` observation tuples. -/
structure ExperimentData where
  timeStateSymbol : List (Nat × Nat × Nat)

/-- `symbolToInd` of `hmm.cc`: first character of the string minus `'a'`. -/
def symbolToInd (symbol : String) : Nat :=
  symbol.front.toNat - 'a'.toNat

/-- `std::map` lookup (`find`/`at`): first entry with the given key. -/
def mapFind : List (String × Nat) → String → Option Nat
  | [], _ => none
  | kv :: rest, k => if kv.1 == k then some kv.2 else mapFind rest k

/-- `std::map` assignment `m[k] = v`: overwrite the entry if present,
otherwise insert it. -/
def mapSet : List (String × Nat) → String → Nat → List (String × Nat)
  | [], k, v => [(k, v)]
  | kv :: rest, k, v => if kv.1 == k then (k, v) :: rest else kv :: mapSet rest k v

/-- `std::map::operator[]` used for reading (`stateNameToIndex[name]`): if
the key is absent it is inserted with a value-initialized mapped value,
i.e. `0`.  Returns the looked-up value together with the updated map. -/
def mapGetOrInsert (reg : List (String × Nat)) (k : String) : Nat × List (String × Nat) :=
  match mapFind reg k with
  | some v => (v, reg)
  | none => (0, reg ++ [(k, 0)])

/-- The states-reading loop of `Model::ReadModel`:
`stateNameToIndex[stateName] = i` for the i-th declared state name. -/
def buildStateRegistry (stateNames : List String) : List (String × Nat) :=
  stateNames.enum.foldl (fun reg p => mapSet reg p.2 p.1) []

/-- Pointwise matrix update, embedding `mat[i][j] = v`. -/
def updProb (mat : Nat → Nat → ℚ) (i j : Nat) (v : ℚ) : Nat → Nat → ℚ :=
  fun a b => if a = i ∧ b = j then v else mat a b

/-- The transitions-reading loop of `Model::ReadModel` (`hmm.cc` lines
59-75): resolve both names with `operator[]` (inserting absent names with
index 0), throw `std::domain_error` on a transition from the ending state
or into the starting state, otherwise record the probability. -/
def processTransitions (nstates : Nat) :
    List (String × String × ℚ) → List (String × Nat) → (Nat → Nat → ℚ) →
      Except HMMError (List (String × Nat) × (Nat → Nat → ℚ))
  | [], reg, tp => Except.ok (reg, tp)
  | tr :: rest, reg, tp =>
    if (mapGetOrInsert reg tr.1).1 + 1 = nstates then
      Except.error (HMMError.domainError "Transition from the ending state is forbidden")
    else if (mapGetOrInsert (mapGetOrInsert reg tr.1).2 tr.2.1).1 = 0 then
      Except.error (HMMError.domainError "Transition to the starting state is forbidden")
    else
      processTransitions nstates rest (mapGetOrInsert (mapGetOrInsert reg tr.1).2 tr.2.1).2
        (updProb tp (mapGetOrInsert reg tr.1).1
          (mapGetOrInsert (mapGetOrInsert reg tr.1).2 tr.2.1).1 tr.2.2)

/-- The emissions-reading loop of `Model::ReadModel` (`hmm.cc` lines
84-96): resolve the state name with `operator[]`, throw
`std::domain_error` for an emission attached to the beginning or the
ending state, otherwise record the probability. -/
def processEmissions (nstates : Nat) :
    List (String × String × ℚ) → List (String × Nat) → (Nat → Nat → ℚ) →
      Except HMMError (List (String × Nat) × (Nat → Nat → ℚ))
  | [], reg, ep => Except.ok (reg, ep)
  | em :: rest, reg, ep =>
    if (mapGetOrInsert reg em.1).1 = 0 ∨ (mapGetOrInsert reg em.1).1 + 1 = nstates then
      Except.error
        (HMMError.domainError "Symbol emission from the beginning or the ending states is forbidden")
    else
      processEmissions nstates rest (mapGetOrInsert reg em.1).2
        (updProb ep (mapGetOrInsert reg em.1).1 (symbolToInd em.2.1) em.2.2)

/-- The structured text consumed by `Model::ReadModel`: the state count,
the declared state names, the alphabet size, the
`(fromName, toName, prob)` transition triples and the
`(stateName, symbol, prob)` emission triples, in stream order. -/
structure ModelInput where
  nstates : Nat
  stateNames : List String
  alphabetSize : Nat
  transitions : List (String × String × ℚ)
  emissions : List (String × String × ℚ)

/-- `Model::ReadModel` (`hmm.cc` lines 36-97): build the name registry from
the declared state names, then process the transition triples, then the
emission triples; the first violated invariant aborts with the
corresponding `std::domain_error`. -/
def ReadModel (input : ModelInput) : Except HMMError Model :=
  match processTransitions input.nstates input.transitions
      (buildStateRegistry input.stateNames) (fun _ _ => 0) with
  | Except.error e => Except.error e
  | Except.ok rt =>
    match processEmissions input.nstates input.emissions rt.1 (fun _ _ => 0) with
    | Except.error e => Except.error e
    | Except.ok re =>
      Except.ok { stateNameToIndex := re.1, alphabetSize := input.alphabetSize,
                  nstates := input.nstates, transitionProb := rt.2, stateSymbolProb := re.2 }

/-- The index a state name resolves to under `operator[]` during
`ReadModel`: its registered index if it was declared, and `0` (the value
inserted by `operator[]`) otherwise. -/
def resolveName (input : ModelInput) (k : String) : Nat :=
  (mapFind (buildStateRegistry input.stateNames) k).getD 0

/-- The observation loop of `ExperimentData::ReadExperimentData` (`hmm.cc`
lines 99-116): resolve each observation's state name with
`model.stateNameToIndex.at(stateName)` (throwing `std::out_of_range` for an
unknown name, embedded as `lookupError`) and collect the
`(stepNumber, stateInd, symbolInd)` tuples. -/
def readTraceAux (model : Model) :
    List (Nat × String × String) → Except HMMError (List (Nat × Nat × Nat))
  | [] => Except.ok []
  | obs :: rest =>
    match mapFind model.stateNameToIndex obs.2.1 with
    | none => Except.error HMMError.lookupError
    | some stateInd =>
      match readTraceAux model rest with
      | Except.error e => Except.error e
      | Except.ok tail => Except.ok ((obs.1, stateInd, symbolToInd obs.2.2) :: tail)

/-- `ExperimentData::ReadExperimentData`, packaging the collected tuples. -/
def ReadExperimentData (model : Model) (trace : List (Nat × String × String)) :
    Except HMMError ExperimentData :=
  (readTraceAux model trace).map (fun l => { timeStateSymbol := l })

/-- `HMM_BEGIN_STATE_PROBABILITY` of `hmm.cc`. -/
def HMM_BEGIN_STATE_PROBABILITY : ℚ := 1

/-- `HMM_UNDEFINED_STATE` of `hmm.cc`: `size_t(-1)` on a 64-bit platform. -/
def HMM_UNDEFINED_STATE : Nat := 2 ^ 64 - 1

/-- `CalcNewStateProbability` (`hmm.cc` lines 133-150): the candidate score
of moving from `prevState` to `curState` at step `stepNumber`, reading the
previous path probability from the DP table (fixed to `1` for the START
predecessor and `0` otherwise at step 0). -/
def CalcNewStateProbability (stepNumber prevState curState curSymbol : Nat)
    (model : Model) (sequenceProbability : Nat → Nat → ℚ) : ℚ :=
  (if stepNumber = 0 ∧ prevState = 0 then (1 : ℚ)
   else if stepNumber = 0 ∧ prevState ≠ 0 then 0
   else sequenceProbability (stepNumber - 1) prevState) *
    model.transitionProb prevState curState *
    model.stateSymbolProb curState curSymbol

/-- The ascending scan of `FindBestTransitionSource` (`hmm.cc` lines
163-176): fold over `prevState = 0, …, n-1` keeping the pair
`(bestProbValue, bestPrevState)`, starting from `(-1, HMM_UNDEFINED_STATE)`
and replacing the incumbent only on a strictly greater score. -/
def bestScan (f : Nat → ℚ) (n : Nat) : ℚ × Nat :=
  (List.range n).foldl (fun best p => if best.1 < f p then (f p, p) else best)
    ((-1 : ℚ), HMM_UNDEFINED_STATE)

/-- `FindBestTransitionSource` (`hmm.cc` lines 155-180): at step 0 the
predecessor is fixed to `0` (START); otherwise the ascending
strict-improvement scan over all previous states. -/
def FindBestTransitionSource (stepNumber curState curSymbol : Nat) (model : Model)
    (sequenceProbability : Nat → Nat → ℚ) : Nat :=
  if stepNumber = 0 then 0
  else
    (bestScan
      (fun prevState =>
        CalcNewStateProbability stepNumber prevState curState curSymbol model
          sequenceProbability)
      model.nstates).2

/-- `std::get<2>(data.timeStateSymbol[t])`: the symbol index observed at
step `t`. -/
def symbolAt (data : ExperimentData) (t : Nat) : Nat :=
  (data.timeStateSymbol.getD t (0, 0, 0)).2.2

/-- The DP table `sequenceProbability` filled by the main loop of
`FindMostProbableStateSequence` (`hmm.cc` lines 209-222).  Row `t` of the
C++ table is computed from row `t-1` only (`CalcNewStateProbability` at
step `t` reads index `t-1` of the table and nothing else), so the
row-by-row fill is embedded as this recursion on `t`; the table argument
passed at step `t+1` returns row `t` at every index, matching the only
index actually read. -/
def sequenceProbability (model : Model) (sym : Nat → Nat) : Nat → Nat → ℚ
  | 0, s =>
    CalcNewStateProbability 0 (FindBestTransitionSource 0 s (sym 0) model (fun _ _ => 0))
      s (sym 0) model (fun _ _ => 0)
  | t + 1, s =>
    CalcNewStateProbability (t + 1)
      (FindBestTransitionSource (t + 1) s (sym (t + 1)) model
        (fun _ p => sequenceProbability model sym t p))
      s (sym (t + 1)) model (fun _ p => sequenceProbability model sym t p)

/-- The back-pointer table `prevSeqState` filled by the same loop. -/
def prevSeqState (model : Model) (sym : Nat → Nat) : Nat → Nat → Nat
  | 0, s => FindBestTransitionSource 0 s (sym 0) model (fun _ _ => 0)
  | t + 1, s =>
    FindBestTransitionSource (t + 1) s (sym (t + 1)) model
      (fun _ p => sequenceProbability model sym t p)

/-- `std::distance(begin, std::max_element(begin, end))` over the row
`f 0, …, f (n-1)`: `std::max_element` keeps the first element and replaces
it only when a strictly greater one appears, so the result is the index of
the first occurrence of the maximum. -/
def maxElementIndex (f : Nat → ℚ) (n : Nat) : Nat :=
  (List.range n).foldl (fun best p => if f best < f p then p else best) 0

/-- The backward-recovery loop of `FindMostProbableStateSequence` (`hmm.cc`
lines 233-238) producing `mostProbableSeq` in push order: for
`curStep = maxtime-1, …, 1` the state variable is first moved through the
back-pointer and then pushed, and after the loop the (already pushed)
current state is pushed once more. -/
def recoverLoop (prev : Nat → Nat → Nat) : Nat → Nat → List Nat
  | 0, curState => [curState]
  | t + 1, curState => prev (t + 1) curState :: recoverLoop prev t (prev (t + 1) curState)

/-- `HMM::Algorithms::FindMostProbableStateSequence` (`hmm.cc` lines
183-244): fill the DP tables, pick the first index of the maximum of the
last row, run the backward-recovery loop and reverse the collected list. -/
def FindMostProbableStateSequence (model : Model) (data : ExperimentData) : List Nat :=
  (recoverLoop (prevSeqState model (symbolAt data)) (data.timeStateSymbol.length - 1)
    (maxElementIndex
      (fun s =>
        sequenceProbability model (symbolAt data) (data.timeStateSymbol.length - 1) s)
      model.nstates)).reverse

/-- `HMM::Algorithms::CalcForwardBackwardProbabiliies` (`hmm.cc` lines
246-251): the body consists solely of TODO comments and contains no return
statement and no throw, so the function produces no defined result for any
input; `none` models this absence of any defined value or error signal. -/
def CalcForwardBackwardProbabiliies (model : Model) (data : ExperimentData) :
    Option (List (List (ℚ × ℚ))) :=
  none

/-- A concrete model for evaluating the decoder: states
`S = 0, A = 1, B = 2, E = 3`, transitions `S → A` and `A → B` with
probability 1, and `A`, `B` each emitting symbol 0 with probability 1
(all other entries 0). -/
def chainModel : Model where
  stateNameToIndex := [("S", 0), ("A", 1), ("B", 2), ("E", 3)]
  alphabetSize := 1
  nstates := 4
  transitionProb := fun p q => if p = 0 ∧ q = 1 then 1 else if p = 1 ∧ q = 2 then 1 else 0
  stateSymbolProb := fun q k => if (q = 1 ∨ q = 2) ∧ k = 0 then 1 else 0

/-- A two-step observation sequence for `chainModel`: both observed symbols
are symbol 0, with ground-truth states `A` then `B`. -/
def chainData : ExperimentData where
  timeStateSymbol := [(0, 1, 0), (1, 2, 0)]

/-- The same observed symbols as `chainData`, but with different step
numbers and different ground-truth state indices. -/
def chainDataAlt : ExperimentData where
  timeStateSymbol := [(7, 3, 0), (9, 0, 0)]

/-- A one-step observation of symbol 0 for `chainModel`. -/
def singleData : ExperimentData where
  timeStateSymbol := [(0, 1, 0)]

lemma chainModel_trans_nonneg : ∀ p q, 0 ≤ chainModel.transitionProb p q := by
  intro p q
  show 0 ≤ (if p = 0 ∧ q = 1 then (1 : ℚ) else if p = 1 ∧ q = 2 then 1 else 0)
  split_ifs <;> norm_num

lemma chainModel_emit_nonneg : ∀ q k, 0 ≤ chainModel.stateSymbolProb q k := by
  intro q k
  show 0 ≤ (if (q = 1 ∨ q = 2) ∧ k = 0 then (1 : ℚ) else 0)
  split_ifs <;> norm_num

lemma recoverLoop_length (prev : Nat → Nat → Nat) :
    ∀ t c, (recoverLoop prev t c).length = t + 1 := by
  intro t
  induction t with
  | zero => intro c; rfl
  | succ t ih => intro c; rw [recoverLoop]; simp [ih]

lemma getD_third (l : List (Nat × Nat × Nat)) :
    ∀ t, (l.getD t (0, 0, 0)).2.2 = (l.map (fun x => x.2.2)).getD t 0 := by
  induction l with
  | nil => intro t; rfl
  | cons a l ih =>
    intro t
    cases t with
    | zero => rfl
    | succ t => simpa [List.getD_cons_succ] using ih t

lemma symbolAt_eq_of_map_eq (d1 d2 : ExperimentData)
    (h : d1.timeStateSymbol.map (fun x => x.2.2) = d2.timeStateSymbol.map (fun x => x.2.2)) :
    symbolAt d1 = symbolAt d2 := by
  funext t
  rw [symbolAt, symbolAt, getD_third, getD_third, h]

/-- C8: the forward-backward entry point produces no defined result for any
input — in particular it does not raise any explicit "not implemented"
signal; its C++ body is empty (TODO comments only) and control falls off
the end of a non-void function. -/
theorem calcForwardBackward_no_result (model : Model) (data : ExperimentData) :
    CalcForwardBackwardProbabiliies model data = none := rfl

/-- C3: for every model and every experiment data with at least one time
step, the decoded sequence has exactly one state per time step. -/
theorem decode_length_eq (model : Model) (data : ExperimentData)
    (h : 1 ≤ data.timeStateSymbol.length) :
    (FindMostProbableStateSequence model data).length = data.timeStateSymbol.length := by
  rw [FindMostProbableStateSequence, List.length_reverse, recoverLoop_length]
  exact Nat.succ_pred_eq_of_pos h

theorem decode_length_eq_witness :
    (FindMostProbableStateSequence chainModel chainData).length =
      chainData.timeStateSymbol.length :=
  decode_length_eq chainModel chainData (by decide)

/-- C6: the decoder is a pure function of the model and the per-step symbol
indices: two experiment data whose observation tuples agree on the symbol
component at every step (whatever their step numbers and ground-truth state
indices) decode identically; determinism on identical inputs is the
special case `d1 = d2`. -/
theorem decode_reads_only_symbols (model : Model) (d1 d2 : ExperimentData)
    (h : d1.timeStateSymbol.map (fun x => x.2.2) = d2.timeStateSymbol.map (fun x => x.2.2)) :
    FindMostProbableStateSequence model d1 = FindMostProbableStateSequence model d2 := by
  have hsym := symbolAt_eq_of_map_eq d1 d2 h
  have hlen : d1.timeStateSymbol.length = d2.timeStateSymbol.length := by
    have := congrArg List.length h
    simpa using this
  rw [FindMostProbableStateSequence, FindMostProbableStateSequence, hsym, hlen]

theorem decode_reads_only_symbols_witness :
    FindMostProbableStateSequence chainModel chainData =
      FindMostProbableStateSequence chainModel chainDataAlt :=
  decode_reads_only_symbols chainModel chainData chainDataAlt (by decide)

lemma bestScan_zero (f : Nat → ℚ) : bestScan f 0 = ((-1 : ℚ), HMM_UNDEFINED_STATE) := rfl

lemma bestScan_succ (f : Nat → ℚ) (n : Nat) :
    bestScan f (n + 1) = if (bestScan f n).1 < f n then (f n, n) else bestScan f n := by
  unfold bestScan
  rw [List.range_succ, List.foldl_append, List.foldl_cons, List.foldl_nil]

lemma bestScan_spec (f : Nat → ℚ) :
    ∀ n, 0 < n → (∀ p, p < n → 0 ≤ f p) →
      (bestScan f n).2 < n ∧ (bestScan f n).1 = f (bestScan f n).2 ∧
      (∀ p, p < n → f p ≤ (bestScan f n).1) ∧
      (∀ p, p < (bestScan f n).2 → f p < (bestScan f n).1) := by
  intro n
  induction n with
  | zero => intro h; exact absurd h (by simp)
  | succ n ih =>
    intro _ hf
    rcases Nat.eq_zero_or_pos n with hn | hn
    · subst hn
      have h0 : (0 : ℚ) ≤ f 0 := hf 0 (by norm_num)
      have hlt : (bestScan f 0).1 < f 0 := lt_of_lt_of_le (by rw [bestScan_zero]; norm_num) h0
      rw [bestScan_succ, if_pos hlt]
      refine ⟨by norm_num, rfl, ?_, ?_⟩
      · intro p hp
        have hp0 : p = 0 := Nat.lt_one_iff.mp hp
        subst hp0
        exact le_refl _
      · intro p hp
        exact absurd hp (by simp)
    · have hf' : ∀ p, p < n → 0 ≤ f p := fun p hp => hf p (Nat.lt_succ_of_lt hp)
      obtain ⟨hb1, hb2, hb3, hb4⟩ := ih hn hf'
      rw [bestScan_succ]
      by_cases hup : (bestScan f n).1 < f n
      · rw [if_pos hup]
        refine ⟨Nat.lt_succ_self n, rfl, ?_, ?_⟩
        · intro p hp
          rcases Nat.lt_succ_iff_lt_or_eq.mp hp with h | h
          · exact le_of_lt (lt_of_le_of_lt (hb3 p h) hup)
          · subst h; exact le_refl _
        · intro p hp
          exact lt_of_le_of_lt (hb3 p hp) hup
      · rw [if_neg hup]
        refine ⟨Nat.lt_succ_of_lt hb1, hb2, ?_, hb4⟩
        intro p hp
        rcases Nat.lt_succ_iff_lt_or_eq.mp hp with h | h
        · exact hb3 p h
        · subst h; exact not_lt.mp hup

lemma maxElementIndex_zero (f : Nat → ℚ) : maxElementIndex f 0 = 0 := rfl

lemma maxElementIndex_succ (f : Nat → ℚ) (n : Nat) :
    maxElementIndex f (n + 1) =
      if f (maxElementIndex f n) < f n then n else maxElementIndex f n := by
  unfold maxElementIndex
  rw [List.range_succ, List.foldl_append, List.foldl_cons, List.foldl_nil]

lemma maxElementIndex_spec (f : Nat → ℚ) :
    ∀ n, 0 < n →
      maxElementIndex f n < n ∧
      (∀ p, p < n → f p ≤ f (maxElementIndex f n)) ∧
      (∀ p, p < maxElementIndex f n → f p < f (maxElementIndex f n)) := by
  intro n
  induction n with
  | zero => intro h; exact absurd h (by simp)
  | succ n ih =>
    intro _
    rcases Nat.eq_zero_or_pos n with hn | hn
    · subst hn
      have : maxElementIndex f 1 = 0 := by
        rw [maxElementIndex_succ, maxElementIndex_zero, if_neg (lt_irrefl _)]
      rw [this]
      refine ⟨by norm_num, ?_, ?_⟩
      · intro p hp
        have hp0 : p = 0 := Nat.lt_one_iff.mp hp
        subst hp0
        exact le_refl _
      · intro p hp
        exact absurd hp (by simp)
    · obtain ⟨hb1, hb2, hb3⟩ := ih hn
      rw [maxElementIndex_succ]
      by_cases hup : f (maxElementIndex f n) < f n
      · rw [if_pos hup]
        refine ⟨Nat.lt_succ_self n, ?_, ?_⟩
        · intro p hp
          rcases Nat.lt_succ_iff_lt_or_eq.mp hp with h | h
          · exact le_of_lt (lt_of_le_of_lt (hb2 p h) hup)
          · subst h; exact le_refl _
        · intro p hp
          exact lt_of_le_of_lt (hb2 p hp) hup
      · rw [if_neg hup]
        refine ⟨Nat.lt_succ_of_lt hb1, ?_, hb3⟩
        intro p hp
        rcases Nat.lt_succ_iff_lt_or_eq.mp hp with h | h
        · exact hb2 p h
        · subst h; exact not_lt.mp hup

lemma calcNewStateProbability_nonneg (stepNumber prevState curState curSymbol : Nat)
    (model : Model) (tbl : Nat → Nat → ℚ)
    (ht : ∀ p q, 0 ≤ model.transitionProb p q)
    (he : ∀ q k, 0 ≤ model.stateSymbolProb q k)
    (htbl : ∀ u p, 0 ≤ tbl u p) :
    0 ≤ CalcNewStateProbability stepNumber prevState curState curSymbol model tbl := by
  unfold CalcNewStateProbability
  refine mul_nonneg (mul_nonneg ?_ (ht _ _)) (he _ _)
  split_ifs <;> first | exact htbl _ _ | norm_num

lemma sequenceProbability_nonneg (model : Model) (sym : Nat → Nat)
    (ht : ∀ p q, 0 ≤ model.transitionProb p q)
    (he : ∀ q k, 0 ≤ model.stateSymbolProb q k) :
    ∀ t s, 0 ≤ sequenceProbability model sym t s := by
  intro t
  induction t with
  | zero =>
    intro s
    rw [sequenceProbability]
    exact calcNewStateProbability_nonneg _ _ _ _ _ _ ht he (fun _ _ => le_refl 0)
  | succ t ih =>
    intro s
    rw [sequenceProbability]
    exact calcNewStateProbability_nonneg _ _ _ _ _ _ ht he (fun _ p => ih p)

lemma prevSeqState_lt_nstates (model : Model) (sym : Nat → Nat)
    (ht : ∀ p q, 0 ≤ model.transitionProb p q)
    (he : ∀ q k, 0 ≤ model.stateSymbolProb q k)
    (hn : 0 < model.nstates) :
    ∀ t s, prevSeqState model sym t s < model.nstates := by
  intro t s
  cases t with
  | zero =>
    rw [prevSeqState, FindBestTransitionSource, if_pos rfl]
    exact hn
  | succ t =>
    rw [prevSeqState, FindBestTransitionSource, if_neg (Nat.succ_ne_zero t)]
    exact (bestScan_spec _ model.nstates hn
      (fun p _ => calcNewStateProbability_nonneg _ _ _ _ _ _ ht he
        (fun _ p' => sequenceProbability_nonneg model sym ht he t p'))).1

lemma recoverLoop_mem_lt (prev : Nat → Nat → Nat) (n : Nat)
    (hprev : ∀ u c, prev (u + 1) c < n) :
    ∀ t c, c < n → ∀ x ∈ recoverLoop prev t c, x < n := by
  intro t
  induction t with
  | zero =>
    intro c hc x hx
    rw [recoverLoop, List.mem_singleton] at hx
    subst hx
    exact hc
  | succ t ih =>
    intro c _ x hx
    rw [recoverLoop] at hx
    rcases List.mem_cons.mp hx with h | h
    · subst h; exact hprev t c
    · exact ih (prev (t + 1) c) (hprev t c) x h

/-- C1: for every model with probability (nonnegative) entries, at every
time step `t ≥ 1` within the observation window and every in-range current
state `s`, the DP table entry `sequenceProbability[t][s]` equals the
maximum over all previous states `p` of
`sequenceProbability[t-1][p] * transitionProb[p][s] * stateSymbolProb[s][symbolAt t]`,
and `prevSeqState[t][s]` is the smallest index attaining that maximum
(every candidate is bounded by the stored value, the stored value is the
candidate of the recorded predecessor, and every index below the recorded
predecessor scores strictly less — the ascending strict `>` scan keeps the
lowest index on ties). -/
theorem viterbi_dp_recurrence (model : Model) (data : ExperimentData) (t s : Nat)
    (ht : ∀ p q, 0 ≤ model.transitionProb p q)
    (he : ∀ q k, 0 ≤ model.stateSymbolProb q k)
    (ht1 : 1 ≤ t) (htm : t ≤ data.timeStateSymbol.length - 1)
    (hs : s < model.nstates) :
    (∀ p, p < model.nstates →
        sequenceProbability model (symbolAt data) (t - 1) p * model.transitionProb p s *
            model.stateSymbolProb s (symbolAt data t)
          ≤ sequenceProbability model (symbolAt data) t s) ∧
    sequenceProbability model (symbolAt data) t s =
      sequenceProbability model (symbolAt data) (t - 1)
          (prevSeqState model (symbolAt data) t s) *
        model.transitionProb (prevSeqState model (symbolAt data) t s) s *
        model.stateSymbolProb s (symbolAt data t) ∧
    prevSeqState model (symbolAt data) t s < model.nstates ∧
    (∀ p, p < prevSeqState model (symbolAt data) t s →
        sequenceProbability model (symbolAt data) (t - 1) p * model.transitionProb p s *
            model.stateSymbolProb s (symbolAt data t)
          < sequenceProbability model (symbolAt data) t s) := by
  obtain ⟨t', rfl⟩ : ∃ t', t = t' + 1 := ⟨t - 1, (Nat.succ_pred_eq_of_pos ht1).symm⟩
  simp only [Nat.add_sub_cancel]
  set sym := symbolAt data with hsymdef
  set g : Nat → ℚ := fun p =>
    CalcNewStateProbability (t' + 1) p s (sym (t' + 1)) model
      (fun _ p' => sequenceProbability model sym t' p') with hg
  have hgcand : ∀ p, g p =
      sequenceProbability model sym t' p * model.transitionProb p s *
        model.stateSymbolProb s (sym (t' + 1)) := by
    intro p
    rw [hg]
    simp [CalcNewStateProbability, Nat.succ_ne_zero]
  have hn : 0 < model.nstates := Nat.lt_of_le_of_lt (Nat.zero_le s) hs
  have hgn : ∀ p, p < model.nstates → 0 ≤ g p := fun p _ =>
    calcNewStateProbability_nonneg _ _ _ _ _ _ ht he
      (fun _ p' => sequenceProbability_nonneg model sym ht he t' p')
  obtain ⟨hb1, hb2, hb3, hb4⟩ := bestScan_spec g model.nstates hn hgn
  have hprev : prevSeqState model sym (t' + 1) s = (bestScan g model.nstates).2 := by
    rw [prevSeqState, FindBestTransitionSource, if_neg (Nat.succ_ne_zero t')]
  have hrow : sequenceProbability model sym (t' + 1) s = g ((bestScan g model.nstates).2) := by
    conv_lhs => rw [sequenceProbability]
    rw [FindBestTransitionSource, if_neg (Nat.succ_ne_zero t')]
  refine ⟨?_, ?_, ?_, ?_⟩
  · intro p hp
    have hle := hb3 p hp
    rw [hgcand p] at hle
    rw [hrow, ← hb2]
    exact hle
  · rw [hrow, hprev, ← hgcand]
  · rw [hprev]
    exact hb1
  · intro p hp
    rw [hprev] at hp
    have hlt := hb4 p hp
    rw [hgcand p] at hlt
    rw [hrow, ← hb2]
    exact hlt

theorem viterbi_dp_recurrence_witness :
    sequenceProbability chainModel (symbolAt chainData) 1 2 =
      sequenceProbability chainModel (symbolAt chainData) 0
          (prevSeqState chainModel (symbolAt chainData) 1 2) *
        chainModel.transitionProb (prevSeqState chainModel (symbolAt chainData) 1 2) 2 *
        chainModel.stateSymbolProb 2 (symbolAt chainData 1) ∧
    prevSeqState chainModel (symbolAt chainData) 1 2 < chainModel.nstates := by
  have h := viterbi_dp_recurrence chainModel chainData 1 2 chainModel_trans_nonneg
    chainModel_emit_nonneg (by norm_num) (by decide) (by decide)
  exact ⟨h.2.1, h.2.2.1⟩

/-- C5: at step 0 the decoder fixes the predecessor to START:
`sequenceProbability[0][s] = 1 * transitionProb[0][s] * stateSymbolProb[s][symbolAt 0]`
and `prevSeqState[0][s] = 0` for every state `s`; consequently a one-step
observation sequence decodes to the singleton list holding the (first)
state maximizing `transitionProb[0][c] * stateSymbolProb[c][symbol]`. -/
theorem decode_single_step (model : Model) (data : ExperimentData)
    (hn : 0 < model.nstates) (hlen : data.timeStateSymbol.length = 1) :
    (∀ s, sequenceProbability model (symbolAt data) 0 s =
        1 * model.transitionProb 0 s * model.stateSymbolProb s (symbolAt data 0) ∧
      prevSeqState model (symbolAt data) 0 s = 0) ∧
    (∃ c, FindMostProbableStateSequence model data = [c] ∧ c < model.nstates ∧
      (∀ s, s < model.nstates →
        model.transitionProb 0 s * model.stateSymbolProb s (symbolAt data 0) ≤
          model.transitionProb 0 c * model.stateSymbolProb c (symbolAt data 0))) := by
  have hrow0 : ∀ s, sequenceProbability model (symbolAt data) 0 s =
      1 * model.transitionProb 0 s * model.stateSymbolProb s (symbolAt data 0) := by
    intro s
    rw [sequenceProbability, FindBestTransitionSource, if_pos rfl, CalcNewStateProbability]
    simp
  have hprev0 : ∀ s, prevSeqState model (symbolAt data) 0 s = 0 := by
    intro s
    rw [prevSeqState, FindBestTransitionSource, if_pos rfl]
  obtain ⟨hc1, hc2, _⟩ := maxElementIndex_spec
    (fun s => sequenceProbability model (symbolAt data) 0 s) model.nstates hn
  refine ⟨fun s => ⟨hrow0 s, hprev0 s⟩,
    maxElementIndex (fun s => sequenceProbability model (symbolAt data) 0 s) model.nstates,
    ?_, hc1, ?_⟩
  · rw [FindMostProbableStateSequence, hlen]
    rfl
  · intro s hs
    have hle := hc2 s hs
    simp only at hle
    rw [hrow0 s, hrow0 _] at hle
    simpa using hle

theorem decode_single_step_witness :
    sequenceProbability chainModel (symbolAt singleData) 0 2 =
      1 * chainModel.transitionProb 0 2 * chainModel.stateSymbolProb 2 (symbolAt singleData 0) ∧
    prevSeqState chainModel (symbolAt singleData) 0 2 = 0 :=
  (decode_single_step chainModel singleData (by decide) (by decide)).1 2

/-- C9: for a model with nonnegative (probability) entries, at least one
state and at least one observation step, every entry of the decoded
sequence is an index below `nstates`; in particular the sentinel
`HMM_UNDEFINED_STATE` never appears (each strict-improvement scan starts
from best value `-1`, which every candidate score, being `≥ 0`, beats). -/
theorem decode_states_in_range (model : Model) (data : ExperimentData)
    (ht : ∀ p q, 0 ≤ model.transitionProb p q)
    (he : ∀ q k, 0 ≤ model.stateSymbolProb q k)
    (hn : 0 < model.nstates)
    (hlen : 1 ≤ data.timeStateSymbol.length) :
    (∀ x ∈ FindMostProbableStateSequence model data, x < model.nstates) ∧
    (model.nstates ≤ HMM_UNDEFINED_STATE →
      HMM_UNDEFINED_STATE ∉ FindMostProbableStateSequence model data) := by
  have hmem : ∀ x ∈ FindMostProbableStateSequence model data, x < model.nstates := by
    intro x hx
    rw [FindMostProbableStateSequence, List.mem_reverse] at hx
    exact recoverLoop_mem_lt _ _
      (fun u c => prevSeqState_lt_nstates model (symbolAt data) ht he hn (u + 1) c) _ _
      (maxElementIndex_spec _ model.nstates hn).1 x hx
  exact ⟨hmem, fun hle hbad => absurd (hmem _ hbad) (not_lt.mpr hle)⟩

lemma chainDecode_eval : FindMostProbableStateSequence chainModel chainData = [1, 1] := by
  norm_num [FindMostProbableStateSequence, sequenceProbability, prevSeqState,
    FindBestTransitionSource, CalcNewStateProbability, bestScan, maxElementIndex, recoverLoop,
    symbolAt, chainModel, chainData, List.range_succ]

theorem decode_states_in_range_witness : (1 : Nat) < chainModel.nstates :=
  (decode_states_in_range chainModel chainData chainModel_trans_nonneg chainModel_emit_nonneg
    (by decide) (by decide)).1 1 (by simp [chainDecode_eval])

/-- C2: counterexample evaluation.  On `chainModel` with the two-step
observation `chainData`, the state maximizing the final DP row is `B = 2`
(with back-pointer `A = 1`), so the claimed recovery would return `[1, 2]`;
the code instead returns `[1, 1]`: the backward loop advances the state
variable through the back-pointer before pushing, so the selected final
state is never emitted and the step-0 state is emitted twice. -/
theorem decode_omits_final_argmax_state :
    FindMostProbableStateSequence chainModel chainData = [1, 1] ∧
    maxElementIndex (fun s => sequenceProbability chainModel (symbolAt chainData) 1 s)
      chainModel.nstates = 2 ∧
    prevSeqState chainModel (symbolAt chainData) 1 2 = 1 := by
  refine ⟨chainDecode_eval, ?_, ?_⟩ <;>
  norm_num [sequenceProbability, prevSeqState, FindBestTransitionSource,
    CalcNewStateProbability, bestScan, maxElementIndex, symbolAt, chainModel, chainData,
    List.range_succ]

/-- A registry is faithful to the resolution function `res` when looking any
key up (with default `0` for an absent key, the value `operator[]` would
insert) yields `res`.  The initial registry is faithful to `resolveName`
by definition, and `operator[]`-insertions of absent keys (always with
value `0`) preserve faithfulness. -/
def goodReg (res : String → Nat) (reg : List (String × Nat)) : Prop :=
  ∀ k, (mapFind reg k).getD 0 = res k

lemma mapFind_append_zero (reg : List (String × Nat)) (k : String) :
    ∀ k', (mapFind (reg ++ [(k, 0)]) k').getD 0 = (mapFind reg k').getD 0 := by
  induction reg with
  | nil =>
    intro k'
    by_cases h : k == k'
    · simp [mapFind, h]
    · simp [mapFind, h]
  | cons kv rest ih =>
    intro k'
    by_cases h : kv.1 == k'
    · simp [mapFind, h]
    · simp [mapFind, h, ih k']

lemma mapGetOrInsert_good (res : String → Nat) (reg : List (String × Nat)) (k : String)
    (h : goodReg res reg) :
    (mapGetOrInsert reg k).1 = res k ∧ goodReg res (mapGetOrInsert reg k).2 := by
  rcases hf : mapFind reg k with _ | v
  · refine ⟨?_, ?_⟩
    · have hk := h k
      rw [hf] at hk
      simpa [mapGetOrInsert, hf] using hk
    · intro k'
      have hk' := h k'
      simp only [mapGetOrInsert, hf]
      rw [mapFind_append_zero]
      exact hk'
  · refine ⟨?_, ?_⟩
    · have hk := h k
      rw [hf] at hk
      simpa [mapGetOrInsert, hf] using hk
    · intro k'
      simpa [mapGetOrInsert, hf] using h k'

lemma processTransitions_spec (n : Nat) (res : String → Nat) :
    ∀ (trs : List (String × String × ℚ)) (reg : List (String × Nat)) (tp : Nat → Nat → ℚ),
      goodReg res reg →
      ((∃ e, processTransitions n trs reg tp = Except.error e) ↔
        ∃ tr ∈ trs, res tr.1 + 1 = n ∨ res tr.2.1 = 0) ∧
      (∀ e, processTransitions n trs reg tp = Except.error e →
        ∃ msg, e = HMMError.domainError msg) ∧
      (∀ rt, processTransitions n trs reg tp = Except.ok rt → goodReg res rt.1) := by
  intro trs
  induction trs with
  | nil =>
    intro reg tp h
    refine ⟨?_, ?_, ?_⟩
    · constructor
      · rintro ⟨e, he⟩
        rw [processTransitions] at he
        exact absurd he (by simp)
      · rintro ⟨tr, htr, _⟩
        exact absurd htr (List.not_mem_nil tr)
    · intro e he
      rw [processTransitions] at he
      exact absurd he (by simp)
    · intro rt hok
      rw [processTransitions] at hok
      injection hok with h1
      rw [← h1]
      exact h
  | cons tr rest ih =>
    intro reg tp h
    obtain ⟨hfrom, hgood1⟩ := mapGetOrInsert_good res reg tr.1 h
    obtain ⟨hto, hgood2⟩ := mapGetOrInsert_good res (mapGetOrInsert reg tr.1).2 tr.2.1 hgood1
    by_cases hA : res tr.1 + 1 = n
    · have heq : processTransitions n (tr :: rest) reg tp =
          Except.error (HMMError.domainError "Transition from the ending state is forbidden") := by
        rw [processTransitions, if_pos (by rw [hfrom]; exact hA)]
      refine ⟨?_, ?_, ?_⟩
      · constructor
        · intro _
          exact ⟨tr, List.mem_cons_self tr rest, Or.inl hA⟩
        · intro _
          exact ⟨_, heq⟩
      · intro e he
        rw [heq] at he
        injection he with h1
        exact ⟨_, h1.symm⟩
      · intro rt hok
        rw [heq] at hok
        exact absurd hok (by simp)
    · by_cases hB : res tr.2.1 = 0
      · have heq : processTransitions n (tr :: rest) reg tp =
            Except.error
              (HMMError.domainError "Transition to the starting state is forbidden") := by
          rw [processTransitions, if_neg (by rw [hfrom]; exact hA),
            if_pos (by rw [hto]; exact hB)]
        refine ⟨?_, ?_, ?_⟩
        · constructor
          · intro _
            exact ⟨tr, List.mem_cons_self tr rest, Or.inr hB⟩
          · intro _
            exact ⟨_, heq⟩
        · intro e he
          rw [heq] at he
          injection he with h1
          exact ⟨_, h1.symm⟩
        · intro rt hok
          rw [heq] at hok
          exact absurd hok (by simp)
      · have heq : processTransitions n (tr :: rest) reg tp =
            processTransitions n rest (mapGetOrInsert (mapGetOrInsert reg tr.1).2 tr.2.1).2
              (updProb tp (mapGetOrInsert reg tr.1).1
                (mapGetOrInsert (mapGetOrInsert reg tr.1).2 tr.2.1).1 tr.2.2) := by
          rw [processTransitions, if_neg (by rw [hfrom]; exact hA),
            if_neg (by rw [hto]; exact hB)]
        obtain ⟨ihIff, ihShape, ihGood⟩ := ih
          (mapGetOrInsert (mapGetOrInsert reg tr.1).2 tr.2.1).2
          (updProb tp (mapGetOrInsert reg tr.1).1
            (mapGetOrInsert (mapGetOrInsert reg tr.1).2 tr.2.1).1 tr.2.2) hgood2
        refine ⟨?_, ?_, ?_⟩
        · rw [heq]
          constructor
          · intro hex
            obtain ⟨tr', htr', hcond⟩ := ihIff.mp hex
            exact ⟨tr', List.mem_cons_of_mem tr htr', hcond⟩
          · rintro ⟨tr', htr', hcond⟩
            rcases List.mem_cons.mp htr' with rfl | hmem
            · rcases hcond with hc | hc
              · exact absurd hc hA
              · exact absurd hc hB
            · exact ihIff.mpr ⟨tr', hmem, hcond⟩
        · intro e he
          rw [heq] at he
          exact ihShape e he
        · intro rt hok
          rw [heq] at hok
          exact ihGood rt hok

lemma processEmissions_spec (n : Nat) (res : String → Nat) :
    ∀ (ems : List (String × String × ℚ)) (reg : List (String × Nat)) (ep : Nat → Nat → ℚ),
      goodReg res reg →
      ((∃ e, processEmissions n ems reg ep = Except.error e) ↔
        ∃ em ∈ ems, res em.1 = 0 ∨ res em.1 + 1 = n) ∧
      (∀ e, processEmissions n ems reg ep = Except.error e →
        ∃ msg, e = HMMError.domainError msg) ∧
      (∀ re, processEmissions n ems reg ep = Except.ok re → goodReg res re.1) := by
  intro ems
  induction ems with
  | nil =>
    intro reg ep h
    refine ⟨?_, ?_, ?_⟩
    · constructor
      · rintro ⟨e, he⟩
        rw [processEmissions] at he
        exact absurd he (by simp)
      · rintro ⟨em, hem, _⟩
        exact absurd hem (List.not_mem_nil em)
    · intro e he
      rw [processEmissions] at he
      exact absurd he (by simp)
    · intro re hok
      rw [processEmissions] at hok
      injection hok with h1
      rw [← h1]
      exact h
  | cons em rest ih =>
    intro reg ep h
    obtain ⟨hst, hgood1⟩ := mapGetOrInsert_good res reg em.1 h
    by_cases hA : res em.1 = 0 ∨ res em.1 + 1 = n
    · have heq : processEmissions n (em :: rest) reg ep =
          Except.error
            (HMMError.domainError
              "Symbol emission from the beginning or the ending states is forbidden") := by
        rw [processEmissions, if_pos (by rw [hst]; exact hA)]
      refine ⟨?_, ?_, ?_⟩
      · constructor
        · intro _
          exact ⟨em, List.mem_cons_self em rest, hA⟩
        · intro _
          exact ⟨_, heq⟩
      · intro e he
        rw [heq] at he
        injection he with h1
        exact ⟨_, h1.symm⟩
      · intro re hok
        rw [heq] at hok
        exact absurd hok (by simp)
    · have heq : processEmissions n (em :: rest) reg ep =
          processEmissions n rest (mapGetOrInsert reg em.1).2
            (updProb ep (mapGetOrInsert reg em.1).1 (symbolToInd em.2.1) em.2.2) := by
        rw [processEmissions, if_neg (by rw [hst]; exact hA)]
      obtain ⟨ihIff, ihShape, ihGood⟩ := ih (mapGetOrInsert reg em.1).2
        (updProb ep (mapGetOrInsert reg em.1).1 (symbolToInd em.2.1) em.2.2) hgood1
      refine ⟨?_, ?_, ?_⟩
      · rw [heq]
        constructor
        · intro hex
          obtain ⟨em', hem', hcond⟩ := ihIff.mp hex
          exact ⟨em', List.mem_cons_of_mem em hem', hcond⟩
        · rintro ⟨em', hem', hcond⟩
          rcases List.mem_cons.mp hem' with rfl | hmem
          · exact absurd hcond hA
          · exact ihIff.mpr ⟨em', hmem, hcond⟩
      · intro e he
        rw [heq] at he
        exact ihShape e he
      · intro re hok
        rw [heq] at hok
        exact ihGood re hok

/-- C4: `ReadModel` fails with a `std::domain_error` exactly when some
transition triple resolves to a source index `nstates - 1` (the END state)
or a target index `0` (the START state), or some emission triple resolves
to the START or END state — name resolution being the `operator[]`
semantics captured by `resolveName`.  In particular a transition declared
from END always raises the domain error (the forward direction of the
equivalence): it is never ignored or zeroed. -/
theorem readModel_domain_error_iff (input : ModelInput) :
    (∃ msg, ReadModel input = Except.error (HMMError.domainError msg)) ↔
      ((∃ tr ∈ input.transitions,
          resolveName input tr.1 + 1 = input.nstates ∨ resolveName input tr.2.1 = 0) ∨
        (∃ em ∈ input.emissions,
          resolveName input em.1 = 0 ∨ resolveName input em.1 + 1 = input.nstates)) := by
  have hgood : goodReg (resolveName input) (buildStateRegistry input.stateNames) :=
    fun k => rfl
  obtain ⟨tIff, tShape, tGood⟩ := processTransitions_spec input.nstates (resolveName input)
    input.transitions (buildStateRegistry input.stateNames) (fun _ _ => 0) hgood
  cases hpt : processTransitions input.nstates input.transitions
      (buildStateRegistry input.stateNames) (fun _ _ => 0) with
  | error e =>
    obtain ⟨msg, rfl⟩ := tShape e hpt
    constructor
    · intro _
      exact Or.inl (tIff.mp ⟨_, hpt⟩)
    · intro _
      exact ⟨msg, by simp only [ReadModel, hpt]⟩
  | ok rt =>
    have noBadTr : ¬ ∃ tr ∈ input.transitions,
        resolveName input tr.1 + 1 = input.nstates ∨ resolveName input tr.2.1 = 0 := by
      intro hbad
      obtain ⟨e, he⟩ := tIff.mpr hbad
      rw [hpt] at he
      exact absurd he (by simp)
    obtain ⟨eIff, eShape, eGood⟩ := processEmissions_spec input.nstates (resolveName input)
      input.emissions rt.1 (fun _ _ => 0) (tGood rt hpt)
    cases hpe : processEmissions input.nstates input.emissions rt.1 (fun _ _ => 0) with
    | error e2 =>
      obtain ⟨msg, rfl⟩ := eShape e2 hpe
      constructor
      · intro _
        exact Or.inr (eIff.mp ⟨_, hpe⟩)
      · intro _
        exact ⟨msg, by simp only [ReadModel, hpt, hpe]⟩
    | ok re =>
      constructor
      · rintro ⟨msg, hmsg⟩
        simp only [ReadModel, hpt, hpe] at hmsg
        exact absurd hmsg (by simp)
      · rintro (hbad | hbad)
        · exact absurd hbad noBadTr
        · obtain ⟨e, he⟩ := eIff.mpr hbad
          rw [hpe] at he
          exact absurd he (by simp)

lemma readTraceAux_spec (model : Model) :
    ∀ trace : List (Nat × String × String),
      ((∃ e, readTraceAux model trace = Except.error e) ↔
        ∃ obs ∈ trace, mapFind model.stateNameToIndex obs.2.1 = none) ∧
      (∀ e, readTraceAux model trace = Except.error e → e = HMMError.lookupError) := by
  intro trace
  induction trace with
  | nil =>
    refine ⟨?_, ?_⟩
    · constructor
      · rintro ⟨e, he⟩
        rw [readTraceAux] at he
        exact absurd he (by simp)
      · rintro ⟨obs, hobs, _⟩
        exact absurd hobs (List.not_mem_nil obs)
    · intro e he
      rw [readTraceAux] at he
      exact absurd he (by simp)
  | cons obs rest ih =>
    cases hf : mapFind model.stateNameToIndex obs.2.1 with
    | none =>
      refine ⟨?_, ?_⟩
      · constructor
        · intro _
          exact ⟨obs, List.mem_cons_self obs rest, hf⟩
        · intro _
          exact ⟨HMMError.lookupError, by rw [readTraceAux, hf]⟩
      · intro e he
        rw [readTraceAux, hf] at he
        injection he with h1
        exact h1.symm
    | some ind =>
      obtain ⟨ihIff, ihShape⟩ := ih
      cases hr : readTraceAux model rest with
      | error e1 =>
        refine ⟨?_, ?_⟩
        · constructor
          · intro _
            obtain ⟨obs', hmem, hnone⟩ := ihIff.mp ⟨e1, hr⟩
            exact ⟨obs', List.mem_cons_of_mem obs hmem, hnone⟩
          · intro _
            exact ⟨e1, by rw [readTraceAux, hf, hr]⟩
        · intro e he
          rw [readTraceAux, hf, hr] at he
          injection he with h1
          exact h1.symm.trans (ihShape e1 hr)
      | ok tail =>
        refine ⟨?_, ?_⟩
        · constructor
          · rintro ⟨e, he⟩
            rw [readTraceAux, hf, hr] at he
            exact absurd he (by simp)
          · rintro ⟨obs', hmem, hnone⟩
            rcases List.mem_cons.mp hmem with rfl | hmem2
            · rw [hf] at hnone
              exact absurd hnone (by simp)
            · obtain ⟨e, he⟩ := ihIff.mpr ⟨obs', hmem2, hnone⟩
              rw [hr] at he
              exact absurd he (by simp)
        · intro e he
          rw [readTraceAux, hf, hr] at he
          exact absurd he (by simp)

/-- C7: `ReadExperimentData` fails (necessarily with the lookup error, the
embedding of `std::out_of_range` thrown by `map::at`) if and only if some
observation's state name is absent from the model's name registry; the
lookup error is a different value from every domain error raised by
`ReadModel`, so callers can distinguish the two failure kinds. -/
theorem readExperimentData_lookup_error_iff (model : Model)
    (trace : List (Nat × String × String)) :
    ((∃ e, ReadExperimentData model trace = Except.error e) ↔
      ∃ obs ∈ trace, mapFind model.stateNameToIndex obs.2.1 = none) ∧
    (∀ e, ReadExperimentData model trace = Except.error e → e = HMMError.lookupError) ∧
    (∀ msg, HMMError.lookupError ≠ HMMError.domainError msg) := by
  obtain ⟨hIff, hShape⟩ := readTraceAux_spec model trace
  have hmap : ∀ e, (ReadExperimentData model trace = Except.error e ↔
      readTraceAux model trace = Except.error e) := by
    intro e
    rw [ReadExperimentData]
    cases readTraceAux model trace with
    | error e1 => simp [Except.map]
    | ok l => simp [Except.map]
  refine ⟨?_, ?_, ?_⟩
  · constructor
    · rintro ⟨e, he⟩
      exact hIff.mp ⟨e, (hmap e).mp he⟩
    · intro hsome
      obtain ⟨e, he⟩ := hIff.mpr hsome
      exact ⟨e, (hmap e).mpr he⟩
  · intro e he
    exact hShape e ((hmap e).mp he)
  · intro msg
    simp

/-- A model input whose single transition names an undeclared source state
`X`: `operator[]` silently inserts `X` with index 0 (START), the
from-END and into-START checks then pass, and construction succeeds with
`X` present in the registry at index 0. -/
def c10okInput : ModelInput where
  nstates := 3
  stateNames := ["S", "A", "E"]
  alphabetSize := 1
  transitions := [("X", "A", 1 / 2)]
  emissions := []

/-- A model input whose single transition names an undeclared target state
`X`: `operator[]` silently inserts `X` with index 0 (START), so the
transition is reported as a transition into the starting state. -/
def c10errInput : ModelInput where
  nstates := 3
  stateNames := ["S", "A", "E"]
  alphabetSize := 1
  transitions := [("A", "X", 1 / 2)]
  emissions := []

/-- C10: `ReadModel` never raises the lookup error (its only failures are
domain errors); an undeclared state name in a triple is silently inserted
into the registry with index `0` (witnessed by `c10okInput`, whose unknown
source name `X` ends up registered at index 0), and an undeclared target
name is consequently reported as the domain error for a transition into
the START state rather than as an unknown-name failure (witnessed by
`c10errInput`). -/
theorem readModel_inserts_unknown_names :
    (∀ input : ModelInput, ReadModel input ≠ Except.error HMMError.lookupError) ∧
    (ReadModel c10okInput).map (fun model => mapFind model.stateNameToIndex "X") =
      Except.ok (some 0) ∧
    ReadModel c10errInput =
      Except.error (HMMError.domainError "Transition to the starting state is forbidden") := by
  refine ⟨?_, ?_, ?_⟩
  · intro input h
    obtain ⟨tIff, tShape, tGood⟩ := processTransitions_spec input.nstates (resolveName input)
      input.transitions (buildStateRegistry input.stateNames) (fun _ _ => 0) (fun k => rfl)
    cases hpt : processTransitions input.nstates input.transitions
        (buildStateRegistry input.stateNames) (fun _ _ => 0) with
    | error e =>
      obtain ⟨msg, rfl⟩ := tShape e hpt
      simp only [ReadModel, hpt] at h
      simp at h
    | ok rt =>
      obtain ⟨eIff, eShape, eGood⟩ := processEmissions_spec input.nstates (resolveName input)
        input.emissions rt.1 (fun _ _ => 0) (tGood rt hpt)
      cases hpe : processEmissions input.nstates input.emissions rt.1 (fun _ _ => 0) with
      | error e2 =>
        obtain ⟨msg, rfl⟩ := eShape e2 hpe
        simp only [ReadModel, hpt, hpe] at h
        simp at h
      | ok re =>
        simp only [ReadModel, hpt, hpe] at h
        exact absurd h (by simp)
  · rfl
  · rfl
